import Mathlib

/-!
Verification of the diff & hunk engine of the `fid` terminal git viewer.

The development shallowly embeds the three components the specification's
testable properties talk about:

* the hunk parser `parseHunks` of `src/components/DiffViewer.ts`,
* the windowed line store `VirtualScrollManager` of `src/utils/virtualScroll.ts`,
* the hunk navigator (`goToNextHunk` / `goToPrevHunk` / the `g`/`G` jumps) of
  `src/components/DiffViewer.ts`, and
* the hunk-apply operations (`stageHunk` / `unstageHunk` / `discardHunk`) of
  `src/services/git.ts`.

Strings are modelled as lists of characters (`Str := List Char`); JavaScript
`string.split("\n")`, `array.join("\n")` and `string.startsWith("@@")` are
modelled by the executable functions `splitLines`, `joinLines` and
`startsWithAtAt` below.  All numbers that can go negative in the source
(window bounds, scroll positions, `currentHunkIndex`) are modelled as `Int`;
loop indices of the parser, which the source only ever uses as non-negative
array indices, are modelled as `Nat`.
-/

set_option maxRecDepth 2000

namespace Fid

/-- Character-list model of a JavaScript string. -/
abbrev Str := List Char

/-- Model of `diff.split("\n")`: split at every newline character; the empty
string yields one empty line, and a trailing newline yields a trailing empty
line, exactly as in JavaScript. -/
def splitLines : Str → List Str
  | [] => [[]]
  | c :: rest =>
    if c = '\n' then [] :: splitLines rest
    else
      match splitLines rest with
      | [] => [[c]]
      | l :: ls => (c :: l) :: ls

/-- Model of `array.join("\n")` on a list of lines. -/
def joinLines : List Str → Str
  | [] => []
  | [x] => x
  | x :: xs => x ++ '\n' :: joinLines xs

/-- Model of `line.startsWith("@@")`. -/
def startsWithAtAt (l : Str) : Bool :=
  match l with
  | '@' :: '@' :: _ => true
  | _ => false

theorem splitLines_ne_nil (s : Str) : splitLines s ≠ [] := by
  induction s with
  | nil => simp [splitLines]
  | cons c rest ih =>
    simp only [splitLines]
    split
    · simp
    · split
      · simp
      · simp

theorem not_newline_mem_splitLines (s : Str) :
    ∀ l ∈ splitLines s, '\n' ∉ l := by
  induction s with
  | nil => intro l hl; simp [splitLines] at hl; simp [hl]
  | cons c rest ih =>
    intro l hl
    simp only [splitLines] at hl
    by_cases hc : c = '\n'
    · simp [hc] at hl
      rcases hl with h | h
      · simp [h]
      · exact ih l h
    · simp [hc] at hl
      rcases hx : splitLines rest with _ | ⟨x, xs⟩
      · exact absurd hx (splitLines_ne_nil rest)
      · rw [hx] at hl
        simp at hl
        rcases hl with h | h
        · subst h
          intro hmem
          simp at hmem
          rcases hmem with h | h
          · exact hc h.symm
          · exact ih x (by rw [hx]; simp) h
        · exact ih l (by rw [hx]; simp [h])

theorem splitLines_no_newline (x : Str) (hx : '\n' ∉ x) : splitLines x = [x] := by
  induction x with
  | nil => simp [splitLines]
  | cons c rest ih =>
    simp at hx
    simp only [splitLines]
    rw [if_neg (fun h => hx.1 h.symm)]
    rw [ih hx.2]

theorem splitLines_append_newline (x : Str) (rest : Str) (hx : '\n' ∉ x) :
    splitLines (x ++ '\n' :: rest) = x :: splitLines rest := by
  induction x with
  | nil => simp [splitLines]
  | cons c t ih =>
    simp at hx
    simp only [List.cons_append, splitLines, List.append_eq]
    rw [if_neg (fun h => hx.1 h.symm)]
    rw [ih hx.2]

/-- Splitting `lines.join("\n") + "\n"` recovers the lines, plus one trailing
empty line produced by the terminating newline. -/
theorem splitLines_joinLines_newline (xs : List Str) (hne : xs ≠ [])
    (hnl : ∀ x ∈ xs, '\n' ∉ x) :
    splitLines (joinLines xs ++ ['\n']) = xs ++ [[]] := by
  induction xs with
  | nil => exact absurd rfl hne
  | cons x xs ih =>
    rcases xs with _ | ⟨y, ys⟩
    · simp only [joinLines]
      have := splitLines_append_newline x [] (hnl x (by simp))
      simpa [splitLines] using this
    · have hx : '\n' ∉ x := hnl x (by simp)
      have hrest : ∀ z ∈ y :: ys, '\n' ∉ z := fun z hz => hnl z (by simp [hz])
      simp only [joinLines, List.append_assoc, List.cons_append]
      rw [splitLines_append_newline x _ hx, ih (by simp) hrest]
      simp

/-!
Hunk parser (`parseHunks`, `src/components/DiffViewer.ts` lines 212-254).
-/

/-- One parsed hunk, mirroring the `HunkInfo` interface of `DiffViewer.ts`. -/
structure HunkInfo where
  index : Nat
  startLine : Nat
  endLine : Nat
  patch : Str
  deriving Repr, DecidableEq

instance : Inhabited HunkInfo := ⟨⟨0, 0, 0, []⟩⟩

/-- The mutable `currentHunk` local of `parseHunks`. -/
structure CurrentHunk where
  startLine : Nat
  lines : List Str
  deriving Repr, DecidableEq

/-- The locals of one `parseHunks` run: the accumulated `this.hunks`, the open
`currentHunk`, the `diffHeader` preamble lines, and the `inHeader` flag. -/
structure ParseAcc where
  hunks : List HunkInfo
  currentHunk : Option CurrentHunk
  diffHeader : List Str
  inHeader : Bool
  deriving Repr, DecidableEq

/-- Closing a hunk: the object pushed onto `this.hunks`, whose `patch` is
`[...diffHeader, ...currentHunk.lines].join("\n") + "\n"`. -/
def closeHunk (acc : ParseAcc) (cur : CurrentHunk) (endLine : Nat) : HunkInfo :=
  { index := acc.hunks.length
    startLine := cur.startLine
    endLine := endLine
    patch := joinLines (acc.diffHeader ++ cur.lines) ++ ['\n'] }

/-- The `for` loop of `parseHunks`, translated line by line: `i` is the loop
index, lines before the first `@@` line are collected into `diffHeader`
(`continue`), an `@@` line closes the open hunk at `endLine = i - 1` and opens
a new one at `i`, and any other line is appended to the open hunk. -/
def parseHunksLoop : List Str → Nat → ParseAcc → ParseAcc
  | [], _, acc => acc
  | line :: rest, i, acc =>
    if acc.inHeader ∧ startsWithAtAt line = false then
      parseHunksLoop rest (i + 1) { acc with diffHeader := acc.diffHeader ++ [line] }
    else
      let acc1 := if startsWithAtAt line then { acc with inHeader := false } else acc
      if startsWithAtAt line then
        let acc2 :=
          match acc1.currentHunk with
          | some cur => { acc1 with hunks := acc1.hunks ++ [closeHunk acc1 cur (i - 1)] }
          | none => acc1
        parseHunksLoop rest (i + 1) { acc2 with currentHunk := some ⟨i, [line]⟩ }
      else
        match acc1.currentHunk with
        | some cur =>
            parseHunksLoop rest (i + 1)
              { acc1 with currentHunk := some ⟨cur.startLine, cur.lines ++ [line]⟩ }
        | none => parseHunksLoop rest (i + 1) acc1

/-- The accumulator state after the `for` loop of `parseHunks` has run over
all lines. -/
def parseHunksAcc (lines : List Str) : ParseAcc :=
  parseHunksLoop lines 0 ⟨[], none, [], true⟩

/-- `parseHunks` on a pre-split line list: run the loop, then close the final
hunk (if any) at `endLine = lines.length - 1`. -/
def parseHunksLines (lines : List Str) : List HunkInfo :=
  let acc := parseHunksAcc lines
  match acc.currentHunk with
  | some cur => acc.hunks ++ [closeHunk acc cur (lines.length - 1)]
  | none => acc.hunks

/-- `parseHunks(diff)`: split the diff text on newlines and run the loop. -/
def parseHunks (diff : Str) : List HunkInfo :=
  parseHunksLines (splitLines diff)

/-- `showDiff` (line 201): `this.currentHunkIndex = this.hunks.length > 0 ? 0 : -1`. -/
def showDiffCurrentHunkIndex (diff : Str) : Int :=
  if (parseHunks diff).length > 0 then 0 else -1

/-- The line sequence a hunk captured from its document: the lines of the
inclusive absolute range `[startLine, endLine]`. -/
def capturedLines (lines : List Str) (hk : HunkInfo) : List Str :=
  (lines.drop hk.startLine).take (hk.endLine + 1 - hk.startLine)

/-!
A pure re-description of the parse used to prove facts about it: `chunksAux`
splits a line list into the preamble (the lines before the first `@@` line)
and the list of chunks, where each chunk is one `@@` line together with the
non-`@@` lines following it.
-/

/-- Right fold splitting a line list into (chunks, preamble-so-far). -/
def chunksAux (l : List Str) : List (List Str) × List Str :=
  l.foldr
    (fun x acc => if startsWithAtAt x then ((x :: acc.2) :: acc.1, []) else (acc.1, x :: acc.2))
    ([], [])

/-- A well-formed chunk: nonempty, `@@` head, non-`@@` tail. -/
def ChunkWF (c : List Str) : Prop :=
  ∃ hd tl, c = hd :: tl ∧ startsWithAtAt hd = true ∧ ∀ x ∈ tl, startsWithAtAt x = false

/-- The closed-form result of the parse on a nonempty chunk list: `dh` is the
preamble, `j` the next hunk index, `s`/`cap` the open hunk's start and
captured lines, `i` the current absolute line index, `L` the total number of
lines.  Every chunk but the last closes at the next chunk's start minus one;
the last closes at `L - 1`. -/
def hunksFromChunks (dh : List Str) :
    Nat → Nat → Nat → List Str → List (List Str) → Nat → List HunkInfo
  | j, _, s, cap, [], L => [⟨j, s, L - 1, joinLines (dh ++ cap) ++ ['\n']⟩]
  | j, i, s, cap, c :: cs, L =>
      ⟨j, s, i - 1, joinLines (dh ++ cap) ++ ['\n']⟩ ::
        hunksFromChunks dh (j + 1) (i + c.length) i c cs L

/-- The closed-form description of `parseHunksLines`. -/
def specHunks (lines : List Str) : List HunkInfo :=
  match chunksAux lines with
  | ([], _) => []
  | (c :: cs, pre) =>
      hunksFromChunks pre 0 (pre.length + c.length) pre.length c cs lines.length

theorem chunksAux_decomp (l : List Str) :
    l = (chunksAux l).2 ++ (chunksAux l).1.flatten := by
  induction l with
  | nil => simp [chunksAux]
  | cons x rest ih =>
    simp only [chunksAux, List.foldr_cons] at *
    by_cases hx : startsWithAtAt x
    · simp [hx]
      exact ih
    · simp [hx]
      exact ih

theorem chunksAux_pre_nonAt (l : List Str) :
    ∀ x ∈ (chunksAux l).2, startsWithAtAt x = false := by
  induction l with
  | nil => simp [chunksAux]
  | cons y rest ih =>
    simp only [chunksAux, List.foldr_cons] at *
    by_cases hy : startsWithAtAt y
    · simp [hy]
    · simp [hy]
      exact ih

theorem chunksAux_wf (l : List Str) :
    ∀ c ∈ (chunksAux l).1, ChunkWF c := by
  induction l with
  | nil => simp [chunksAux]
  | cons y rest ih =>
    simp only [chunksAux, List.foldr_cons] at *
    by_cases hy : startsWithAtAt y
    · simp only [hy, if_pos rfl]
      intro c hc
      simp at hc
      rcases hc with hc | hc
      · exact ⟨y, (chunksAux rest).2, hc, hy, chunksAux_pre_nonAt rest⟩
      · exact ih c hc
    · simp [hy]
      exact ih

theorem chunksAux_pre_takeWhile (l : List Str) :
    (chunksAux l).2 = l.takeWhile (fun x => !startsWithAtAt x) := by
  induction l with
  | nil => simp [chunksAux]
  | cons y rest ih =>
    simp only [chunksAux, List.foldr_cons, List.takeWhile_cons] at *
    by_cases hy : startsWithAtAt y
    · simp [hy]
    · simp [hy]
      exact ih

theorem loop_step_header (line : Str) (rest : List Str) (i : Nat) (acc : ParseAcc)
    (hin : acc.inHeader = true) (hat : startsWithAtAt line = false) :
    parseHunksLoop (line :: rest) i acc =
      parseHunksLoop rest (i + 1) { acc with diffHeader := acc.diffHeader ++ [line] } := by
  simp [parseHunksLoop, hin, hat]

theorem loop_step_atat_open (line : Str) (rest : List Str) (i : Nat) (acc : ParseAcc)
    (hat : startsWithAtAt line = true) (hcur : acc.currentHunk = none) :
    parseHunksLoop (line :: rest) i acc =
      parseHunksLoop rest (i + 1)
        { acc with inHeader := false, currentHunk := some ⟨i, [line]⟩ } := by
  simp [parseHunksLoop, hat, hcur]

theorem loop_step_atat_close (line : Str) (rest : List Str) (i : Nat) (acc : ParseAcc)
    (cur : CurrentHunk) (hat : startsWithAtAt line = true)
    (hcur : acc.currentHunk = some cur) :
    parseHunksLoop (line :: rest) i acc =
      parseHunksLoop rest (i + 1)
        { acc with inHeader := false,
                   hunks := acc.hunks ++ [closeHunk acc cur (i - 1)],
                   currentHunk := some ⟨i, [line]⟩ } := by
  simp [parseHunksLoop, hat, hcur, closeHunk]

theorem loop_step_body (line : Str) (rest : List Str) (i : Nat) (acc : ParseAcc)
    (cur : CurrentHunk) (hin : acc.inHeader = false) (hat : startsWithAtAt line = false)
    (hcur : acc.currentHunk = some cur) :
    parseHunksLoop (line :: rest) i acc =
      parseHunksLoop rest (i + 1)
        { acc with currentHunk := some ⟨cur.startLine, cur.lines ++ [line]⟩ } := by
  simp [parseHunksLoop, hin, hat, hcur]

theorem loop_run_header (seg : List Str) (rest : List Str) (i : Nat)
    (hs : List HunkInfo) (dh : List Str) (hseg : ∀ l ∈ seg, startsWithAtAt l = false) :
    parseHunksLoop (seg ++ rest) i ⟨hs, none, dh, true⟩ =
      parseHunksLoop rest (i + seg.length) ⟨hs, none, dh ++ seg, true⟩ := by
  induction seg generalizing i dh with
  | nil => simp
  | cons x t ih =>
    have hx : startsWithAtAt x = false := hseg x (by simp)
    have ht : ∀ l ∈ t, startsWithAtAt l = false := fun l hl => hseg l (by simp [hl])
    rw [List.cons_append, loop_step_header x (t ++ rest) i _ rfl hx]
    rw [ih (i + 1) (dh ++ [x]) ht]
    simp
    ring_nf

theorem loop_run_body (seg : List Str) (rest : List Str) (i : Nat)
    (hs : List HunkInfo) (dh : List Str) (s : Nat) (cap : List Str)
    (hseg : ∀ l ∈ seg, startsWithAtAt l = false) :
    parseHunksLoop (seg ++ rest) i ⟨hs, some ⟨s, cap⟩, dh, false⟩ =
      parseHunksLoop rest (i + seg.length) ⟨hs, some ⟨s, cap ++ seg⟩, dh, false⟩ := by
  induction seg generalizing i cap with
  | nil => simp
  | cons x t ih =>
    have hx : startsWithAtAt x = false := hseg x (by simp)
    have ht : ∀ l ∈ t, startsWithAtAt l = false := fun l hl => hseg l (by simp [hl])
    rw [List.cons_append, loop_step_body x (t ++ rest) i _ ⟨s, cap⟩ rfl hx rfl]
    rw [ih (i + 1) (cap ++ [x]) ht]
    simp
    ring_nf

/-- The epilogue of `parseHunks`: close the still-open hunk, if any, at the
last line of the document. -/
def finishParse (acc : ParseAcc) (L : Nat) : List HunkInfo :=
  match acc.currentHunk with
  | some cur => acc.hunks ++ [closeHunk acc cur (L - 1)]
  | none => acc.hunks

theorem parseHunksLines_eq_finish (lines : List Str) :
    parseHunksLines lines = finishParse (parseHunksAcc lines) lines.length := rfl

theorem finish_loop_chunks (cs : List (List Str)) :
    ∀ (i : Nat) (hs : List HunkInfo) (dh : List Str) (s : Nat) (cap : List Str) (L : Nat),
      (∀ c ∈ cs, ChunkWF c) → L = i + cs.flatten.length →
      finishParse (parseHunksLoop cs.flatten i ⟨hs, some ⟨s, cap⟩, dh, false⟩) L =
        hs ++ hunksFromChunks dh hs.length i s cap cs L := by
  induction cs with
  | nil =>
    intro i hs dh s cap L _ _
    simp [parseHunksLoop, finishParse, hunksFromChunks, closeHunk]
  | cons c cs ih =>
    intro i hs dh s cap L hwf hL
    obtain ⟨hd, tl, hc, hhd, htl⟩ := hwf c (by simp)
    subst hc
    have hflat : ((hd :: tl) :: cs).flatten = hd :: (tl ++ cs.flatten) := by simp
    rw [hflat]
    rw [loop_step_atat_close hd (tl ++ cs.flatten) i _ ⟨s, cap⟩ hhd rfl]
    rw [show (tl ++ cs.flatten) = tl ++ cs.flatten from rfl]
    rw [loop_run_body tl cs.flatten (i + 1) _ dh i [hd] htl]
    have harith : i + 1 + tl.length = i + (hd :: tl).length := by simp; omega
    rw [harith]
    rw [ih (i + (hd :: tl).length) (hs ++ [closeHunk ⟨hs, some ⟨s, cap⟩, dh, false⟩ ⟨s, cap⟩ (i - 1)])
      dh i ([hd] ++ tl) L (fun c hc => hwf c (by simp [hc]))
      (by rw [hL, hflat]; simp; omega)]
    simp only [List.length_append, List.length_cons, List.length_nil, List.append_assoc,
      List.singleton_append]
    congr 1

theorem parseHunksLines_eq_specHunks (lines : List Str) :
    parseHunksLines lines = specHunks lines := by
  rcases hchunks : chunksAux lines with ⟨cs, pre⟩
  have hdecomp := chunksAux_decomp lines
  have hpre := chunksAux_pre_nonAt lines
  rw [hchunks] at hdecomp hpre
  simp only at hdecomp hpre
  rcases cs with _ | ⟨c, cs⟩
  · -- no `@@` line at all: the loop collects everything into `diffHeader`
    simp only [List.flatten_nil, List.append_nil] at hdecomp
    rw [parseHunksLines_eq_finish]
    have step1 : parseHunksAcc lines = ⟨[], none, [] ++ pre, true⟩ := by
      unfold parseHunksAcc
      conv_lhs => rw [show lines = pre ++ ([] : List Str) by simp [hdecomp]]
      rw [loop_run_header pre [] 0 [] [] hpre]
      rfl
    rw [step1]
    simp [finishParse, specHunks, hchunks]
  · obtain ⟨hd, tl, hc, hhd, htl⟩ := chunksAux_wf lines c (by rw [hchunks]; simp)
    subst hc
    have hsplit : lines = pre ++ (hd :: (tl ++ cs.flatten)) := by
      rw [hdecomp]; simp
    have hwfcs : ∀ c ∈ cs, ChunkWF c :=
      fun c hc => chunksAux_wf lines c (by rw [hchunks]; simp [hc])
    have step1 : parseHunksAcc lines =
        parseHunksLoop (hd :: (tl ++ cs.flatten)) pre.length ⟨[], none, pre, true⟩ := by
      unfold parseHunksAcc
      conv_lhs => rw [hsplit]
      rw [loop_run_header pre _ 0 [] [] hpre]
      simp only [Nat.zero_add, List.nil_append]
    have step2 : parseHunksLoop (hd :: (tl ++ cs.flatten)) pre.length ⟨[], none, pre, true⟩ =
        parseHunksLoop cs.flatten (pre.length + 1 + tl.length)
          ⟨[], some ⟨pre.length, [hd] ++ tl⟩, pre, false⟩ := by
      rw [loop_step_atat_open hd (tl ++ cs.flatten) pre.length _ hhd rfl]
      exact loop_run_body tl cs.flatten (pre.length + 1) [] pre pre.length [hd] htl
    have step3 := finish_loop_chunks cs (pre.length + 1 + tl.length) [] pre pre.length
      ([hd] ++ tl) lines.length hwfcs
      (by rw [hsplit]; simp; omega)
    rw [parseHunksLines_eq_finish, step1, step2, step3]
    simp only [specHunks, hchunks, List.nil_append, List.length_nil]
    have harg : pre.length + 1 + tl.length = pre.length + (hd :: tl).length := by
      simp; omega
    rw [harg]
    simp only [List.singleton_append]

theorem hunksFromChunks_length (cs : List (List Str)) :
    ∀ dh j i s cap L, (hunksFromChunks dh j i s cap cs L).length = cs.length + 1 := by
  induction cs with
  | nil => intro dh j i s cap L; simp [hunksFromChunks]
  | cons c cs ih => intro dh j i s cap L; simp [hunksFromChunks, ih]

theorem hunksFromChunks_chain (cs : List (List Str)) :
    ∀ (dh : List Str) (j i s : Nat) (cap : List Str) (L : Nat),
      s < i → (∀ c ∈ cs, c ≠ []) → L = i + cs.flatten.length →
      (∀ m, m + 1 < cs.length + 1 →
          ((hunksFromChunks dh j i s cap cs L).getD (m + 1) default).startLine =
            ((hunksFromChunks dh j i s cap cs L).getD m default).endLine + 1) ∧
      (∀ m, m < cs.length + 1 →
          ((hunksFromChunks dh j i s cap cs L).getD m default).startLine ≤
            ((hunksFromChunks dh j i s cap cs L).getD m default).endLine) ∧
      ((hunksFromChunks dh j i s cap cs L).getD cs.length default).endLine = L - 1 ∧
      ((hunksFromChunks dh j i s cap cs L).getD 0 default).startLine = s := by
  induction cs with
  | nil =>
    intro dh j i s cap L hsi _ hL
    refine ⟨?_, ?_, ?_, ?_⟩
    · intro m hm
      simp at hm
    · intro m hm
      simp at hm
      subst hm
      simp [hunksFromChunks]
      omega
    · simp [hunksFromChunks]
    · simp [hunksFromChunks]
  | cons c cs ih =>
    intro dh j i s cap L hsi hne hL
    have hc : c ≠ [] := hne c (by simp)
    have hclen : 1 ≤ c.length := by
      rcases c with _ | _
      · exact absurd rfl hc
      · simp
    have hL' : L = (i + c.length) + cs.flatten.length := by
      rw [hL]; simp; omega
    obtain ⟨ihcons, ihle, ihlast, ihhead⟩ :=
      ih dh (j + 1) (i + c.length) i c L (by omega) (fun x hx => hne x (by simp [hx])) hL'
    refine ⟨?_, ?_, ?_, ?_⟩
    · intro m hm
      rcases m with _ | m
      · simp only [hunksFromChunks, List.getD_cons_succ, List.getD_cons_zero]
        rw [ihhead]
        omega
      · simp only [hunksFromChunks, List.getD_cons_succ]
        exact ihcons m (by simpa using hm)
    · intro m hm
      rcases m with _ | m
      · simp only [hunksFromChunks, List.getD_cons_zero]
        omega
      · simp only [hunksFromChunks, List.getD_cons_succ]
        exact ihle m (by simpa using hm)
    · simp only [hunksFromChunks, List.length_cons, List.getD_cons_succ]
      exact ihlast
    · simp [hunksFromChunks]

theorem hunksFromChunks_capture (cs : List (List Str)) :
    ∀ (dh : List Str) (j i s : Nat) (cap : List Str) (L : Nat) (lines : List Str),
      cap ≠ [] → i = s + cap.length → L = i + cs.flatten.length →
      lines.drop s = cap ++ cs.flatten → (∀ c ∈ cs, c ≠ []) →
      ∀ m, m < cs.length + 1 →
        ∃ capm,
          capturedLines lines ((hunksFromChunks dh j i s cap cs L).getD m default) = capm ∧
          ((hunksFromChunks dh j i s cap cs L).getD m default).patch =
            joinLines (dh ++ capm) ++ ['\n'] ∧
          (capm = cap ∨ capm ∈ cs) := by
  induction cs with
  | nil =>
    intro dh j i s cap L lines hcap hi hL hdrop _ m hm
    have hm0 : m = 0 := by simp at hm; omega
    subst hm0
    refine ⟨cap, ?_, by simp [hunksFromChunks], Or.inl rfl⟩
    simp only [hunksFromChunks, List.getD_cons_zero]
    unfold capturedLines
    simp only
    have hL' : L = i := by simpa using hL
    have h1 : L - 1 + 1 - s = cap.length := by
      have : 1 ≤ cap.length := by
        rcases cap with _ | _
        · exact absurd rfl hcap
        · simp
      omega
    rw [h1, hdrop]
    simp
  | cons c cs ih =>
    intro dh j i s cap L lines hcap hi hL hdrop hne m hm
    have hc : c ≠ [] := hne c (by simp)
    have hcaplen : 1 ≤ cap.length := by
      rcases cap with _ | _
      · exact absurd rfl hcap
      · simp
    rcases m with _ | m
    · refine ⟨cap, ?_, by simp [hunksFromChunks], Or.inl rfl⟩
      simp only [hunksFromChunks, List.getD_cons_zero]
      unfold capturedLines
      simp only
      have h1 : i - 1 + 1 - s = cap.length := by omega
      rw [h1, hdrop]
      simp
    · have hdrop' : lines.drop i = c ++ cs.flatten := by
        have : lines.drop i = (lines.drop s).drop cap.length := by
          rw [List.drop_drop]
          congr 1
          try omega
        rw [this, hdrop]
        simp
      obtain ⟨capm, h1, h2, h3⟩ := ih dh (j + 1) (i + c.length) i c L lines hc
        (by omega) (by rw [hL]; simp; omega) hdrop' (fun x hx => hne x (by simp [hx]))
        m (by simpa using hm)
      refine ⟨capm, ?_, ?_, ?_⟩
      · simpa only [hunksFromChunks, List.getD_cons_succ] using h1
      · simpa only [hunksFromChunks, List.getD_cons_succ] using h2
      · rcases h3 with h | h
        · exact Or.inr (by simp [h])
        · exact Or.inr (by simp [h])

theorem parseHunks_eq_specHunks (diff : Str) :
    parseHunks diff = specHunks (splitLines diff) :=
  parseHunksLines_eq_specHunks _

theorem chunksAux_all_nonAt (l : List Str) (h : ∀ x ∈ l, startsWithAtAt x = false) :
    chunksAux l = ([], l) := by
  induction l with
  | nil => simp [chunksAux]
  | cons y rest ih =>
    have hy : startsWithAtAt y = false := h y (by simp)
    have hrest := ih (fun x hx => h x (by simp [hx]))
    simp only [chunksAux, List.foldr_cons] at *
    rw [hrest]
    simp [hy]

theorem chunksAux_cons_atat (hd : Str) (rest : List Str) (hhd : startsWithAtAt hd = true) :
    chunksAux (hd :: rest) =
      ((hd :: (chunksAux rest).2) :: (chunksAux rest).1, []) := by
  simp [chunksAux, hhd]

theorem chunksAux_append_nonAt (pre : List Str) (l : List Str)
    (hpre : ∀ x ∈ pre, startsWithAtAt x = false) :
    chunksAux (pre ++ l) = ((chunksAux l).1, pre ++ (chunksAux l).2) := by
  induction pre with
  | nil => simp
  | cons y t ih =>
    have hy : startsWithAtAt y = false := hpre y (by simp)
    have ht := ih (fun x hx => hpre x (by simp [hx]))
    simp only [List.cons_append, chunksAux, List.foldr_cons] at *
    rw [ht]
    simp [hy]

theorem findIdx_eq_length_takeWhile (p : Str → Bool) (l : List Str) :
    l.findIdx p = (l.takeWhile (fun x => !p x)).length := by
  induction l with
  | nil => simp
  | cons h t ih => by_cases hp : p h <;> simp [List.findIdx_cons, hp, ih]

/-- One-hunk documents parse to exactly one hunk spanning from the end of the
preamble to the last line. -/
theorem parseHunksLines_single (pre : List Str) (hd : Str) (tl : List Str)
    (hpre : ∀ x ∈ pre, startsWithAtAt x = false) (hhd : startsWithAtAt hd = true)
    (htl : ∀ x ∈ tl, startsWithAtAt x = false) :
    parseHunksLines (pre ++ hd :: tl) =
      [⟨0, pre.length, (pre ++ hd :: tl).length - 1,
        joinLines (pre ++ hd :: tl) ++ ['\n']⟩] := by
  rw [parseHunksLines_eq_specHunks]
  have h1 : chunksAux (hd :: tl) = ([hd :: tl], []) := by
    rw [chunksAux_cons_atat hd tl hhd, chunksAux_all_nonAt tl htl]
  have h2 : chunksAux (pre ++ hd :: tl) = ([hd :: tl], pre) := by
    rw [chunksAux_append_nonAt pre _ hpre, h1]
    simp
  simp [specHunks, h2, hunksFromChunks]

theorem chain_pairwise (H : List HunkInfo)
    (hcons : ∀ j, j + 1 < H.length →
      (H.getD (j + 1) default).startLine = (H.getD j default).endLine + 1)
    (hle : ∀ j, j < H.length →
      (H.getD j default).startLine ≤ (H.getD j default).endLine) :
    ∀ j k, j < k → k < H.length →
      (H.getD j default).endLine < (H.getD k default).startLine := by
  intro j k hjk hk
  have main : ∀ k, j + 1 ≤ k → k < H.length →
      (H.getD j default).endLine < (H.getD k default).startLine := by
    intro k hk1
    induction k, hk1 using Nat.le_induction with
    | base =>
      intro hlen
      rw [hcons j hlen]
      omega
    | succ k hk ihk =>
      intro hlen
      have h1 := ihk (by omega)
      have h2 := hcons k (by omega)
      have h3 := hle k (by omega)
      omega
  exact main k (by omega) hk

/-- Claim C7: a diff with no `@@` line parses to zero hunks, every input line
is collected into the preamble `diffHeader`, and `showDiff` leaves
`currentHunkIndex = -1` — a legitimate renderable state, not an error. -/
theorem spec_c7_no_hunk_diffs (diff : Str)
    (hnone : ∀ l ∈ splitLines diff, startsWithAtAt l = false) :
    parseHunks diff = [] ∧
    (parseHunksAcc (splitLines diff)).diffHeader = splitLines diff ∧
    showDiffCurrentHunkIndex diff = -1 := by
  have hch : chunksAux (splitLines diff) = ([], splitLines diff) :=
    chunksAux_all_nonAt _ hnone
  have h1 : parseHunks diff = [] := by
    rw [parseHunks_eq_specHunks]
    simp [specHunks, hch]
  refine ⟨h1, ?_, ?_⟩
  · unfold parseHunksAcc
    have := loop_run_header (splitLines diff) [] 0 [] [] hnone
    rw [show splitLines diff ++ [] = splitLines diff by simp] at this
    rw [this]
    rfl
  · simp [showDiffCurrentHunkIndex, h1]

/-- A two-hunk example diff: one preamble line, then `@@ a` / `+x`,
then `@@ b` / `+y`. -/
def exampleDiff : Str := "h\n@@ a\n+x\n@@ b\n+y".toList

/-- Witness for C7: a preamble-only diff (no `@@` anywhere) parses to no
hunks, full preamble, and hunk index `-1`. -/
theorem spec_c7_witness :
    (∀ l ∈ splitLines ("diff --git a/f b/f\n--- a/f\n+++ b/f".toList),
        startsWithAtAt l = false) ∧
    parseHunks ("diff --git a/f b/f\n--- a/f\n+++ b/f".toList) = [] ∧
    (parseHunksAcc (splitLines ("diff --git a/f b/f\n--- a/f\n+++ b/f".toList))).diffHeader =
      splitLines ("diff --git a/f b/f\n--- a/f\n+++ b/f".toList) ∧
    showDiffCurrentHunkIndex ("diff --git a/f b/f\n--- a/f\n+++ b/f".toList) = -1 := by
  refine ⟨by decide, ?_⟩
  exact spec_c7_no_hunk_diffs ("diff --git a/f b/f\n--- a/f\n+++ b/f".toList) (by decide)

/-- Claim C2: parsed hunks are consecutive (`hunks[i+1].startLine =
hunks[i].endLine + 1`), their inclusive ranges are nonempty and pairwise
disjoint, the first hunk starts at the first `@@` line, and the last hunk
ends at the last line of the document. -/
theorem spec_c2_partition (diff : Str) :
    (∀ j, j + 1 < (parseHunks diff).length →
        ((parseHunks diff).getD (j + 1) default).startLine =
          ((parseHunks diff).getD j default).endLine + 1) ∧
    (∀ j, j < (parseHunks diff).length →
        ((parseHunks diff).getD j default).startLine ≤
          ((parseHunks diff).getD j default).endLine) ∧
    (∀ j k, j < k → k < (parseHunks diff).length →
        ((parseHunks diff).getD j default).endLine <
          ((parseHunks diff).getD k default).startLine) ∧
    (parseHunks diff ≠ [] →
        ((parseHunks diff).getD 0 default).startLine =
          (splitLines diff).findIdx startsWithAtAt ∧
        ((parseHunks diff).getD ((parseHunks diff).length - 1) default).endLine =
          (splitLines diff).length - 1) := by
  rcases hch : chunksAux (splitLines diff) with ⟨cs, pre⟩
  have hdecomp := chunksAux_decomp (splitLines diff)
  rw [hch] at hdecomp
  simp only at hdecomp
  rcases cs with _ | ⟨c, cs⟩
  · have h1 : parseHunks diff = [] := by
      rw [parseHunks_eq_specHunks]
      simp [specHunks, hch]
    rw [h1]
    simp
  · obtain ⟨hd, tl, hc, hhd, htl⟩ := chunksAux_wf (splitLines diff) c (by rw [hch]; simp)
    have hspec : parseHunks diff =
        hunksFromChunks pre 0 (pre.length + c.length) pre.length c cs
          (splitLines diff).length := by
      rw [parseHunks_eq_specHunks]
      simp [specHunks, hch]
    have hclen : 1 ≤ c.length := by rw [hc]; simp
    have hLlen : (splitLines diff).length =
        (pre.length + c.length) + cs.flatten.length := by
      conv_lhs => rw [hdecomp]
      simp
      omega
    have hcsne : ∀ x ∈ cs, x ≠ [] := by
      intro x hx
      obtain ⟨hd', tl', hx', _, _⟩ := chunksAux_wf (splitLines diff) x (by rw [hch]; simp [hx])
      rw [hx']
      simp
    obtain ⟨hcons, hle, hlast, hhead⟩ :=
      hunksFromChunks_chain cs pre 0 (pre.length + c.length) pre.length c
        (splitLines diff).length (by omega) hcsne hLlen
    have hlen : (parseHunks diff).length = cs.length + 1 := by
      rw [hspec, hunksFromChunks_length]
    refine ⟨?_, ?_, ?_, ?_⟩
    · intro j hj
      rw [hlen] at hj
      rw [hspec]
      exact hcons j hj
    · intro j hj
      rw [hlen] at hj
      rw [hspec]
      exact hle j hj
    · intro j k hjk hk
      refine chain_pairwise (parseHunks diff) ?_ ?_ j k hjk hk
      · intro j hj
        rw [hlen] at hj
        rw [hspec]
        exact hcons j hj
      · intro j hj
        rw [hlen] at hj
        rw [hspec]
        exact hle j hj
    · intro _
      constructor
      · rw [hspec, hhead, findIdx_eq_length_takeWhile]
        have := chunksAux_pre_takeWhile (splitLines diff)
        rw [hch] at this
        simp only at this
        rw [← this]
      · rw [hlen, hspec]
        simp only [Nat.add_sub_cancel]
        exact hlast

/-- Witness for C2 on the two-hunk example diff. -/
theorem spec_c2_witness :
    ((parseHunks exampleDiff).getD 1 default).startLine =
      ((parseHunks exampleDiff).getD 0 default).endLine + 1 ∧
    ((parseHunks exampleDiff).getD 0 default).startLine ≤
      ((parseHunks exampleDiff).getD 0 default).endLine ∧
    ((parseHunks exampleDiff).getD 0 default).endLine <
      ((parseHunks exampleDiff).getD 1 default).startLine ∧
    ((parseHunks exampleDiff).getD 0 default).startLine =
      (splitLines exampleDiff).findIdx startsWithAtAt ∧
    ((parseHunks exampleDiff).getD ((parseHunks exampleDiff).length - 1) default).endLine =
      (splitLines exampleDiff).length - 1 := by
  obtain ⟨h1, h2, h3, h4⟩ := spec_c2_partition exampleDiff
  obtain ⟨h5, h6⟩ := h4 (by decide)
  exact ⟨h1 0 (by decide), h2 0 (by decide), h3 0 1 (by decide) (by decide), h5, h6⟩

/-- Lines captured by a parsed hunk are lines of the input document. -/
theorem capture_mem_lines (diff : Str) (j : Nat) :
    ∀ x ∈ capturedLines (splitLines diff) ((parseHunks diff).getD j default),
      x ∈ splitLines diff := by
  intro x hx
  unfold capturedLines at hx
  exact List.mem_of_mem_drop (List.mem_of_mem_take hx)

/-- Description of every parsed hunk's patch: the preamble joined with the
hunk's captured lines, newline-terminated; the captured lines are a
well-formed chunk (an `@@` head followed by non-`@@` lines); the preamble has
no `@@` line. -/
theorem parseHunks_patch_spec (diff : Str) (j : Nat) (hj : j < (parseHunks diff).length) :
    ((parseHunks diff).getD j default).patch =
      joinLines ((chunksAux (splitLines diff)).2 ++
        capturedLines (splitLines diff) ((parseHunks diff).getD j default)) ++ ['\n'] ∧
    ChunkWF (capturedLines (splitLines diff) ((parseHunks diff).getD j default)) ∧
    (∀ x ∈ (chunksAux (splitLines diff)).2, startsWithAtAt x = false) := by
  rcases hch : chunksAux (splitLines diff) with ⟨cs, pre⟩
  have hdecomp := chunksAux_decomp (splitLines diff)
  rw [hch] at hdecomp
  simp only at hdecomp
  rcases cs with _ | ⟨c, cs⟩
  · have h1 : parseHunks diff = [] := by
      rw [parseHunks_eq_specHunks]
      simp [specHunks, hch]
    rw [h1] at hj
    simp at hj
  · have hcwf : ChunkWF c := chunksAux_wf (splitLines diff) c (by rw [hch]; simp)
    obtain ⟨hd, tl, hc, hhd, htl⟩ := hcwf
    have hspec : parseHunks diff =
        hunksFromChunks pre 0 (pre.length + c.length) pre.length c cs
          (splitLines diff).length := by
      rw [parseHunks_eq_specHunks]
      simp [specHunks, hch]
    have hcne : c ≠ [] := by rw [hc]; simp
    have hLlen : (splitLines diff).length =
        (pre.length + c.length) + cs.flatten.length := by
      conv_lhs => rw [hdecomp]
      simp
      omega
    have hdrop : (splitLines diff).drop pre.length = c ++ cs.flatten := by
      conv_lhs => rw [hdecomp]
      rw [List.drop_left]
      simp
    have hcsne : ∀ x ∈ cs, x ≠ [] := by
      intro x hx
      obtain ⟨hd', tl', hx', _, _⟩ :=
        chunksAux_wf (splitLines diff) x (by rw [hch]; simp [hx])
      rw [hx']
      simp
    have hlen : (parseHunks diff).length = cs.length + 1 := by
      rw [hspec, hunksFromChunks_length]
    obtain ⟨capm, hcapm, hpatch, hmem⟩ :=
      hunksFromChunks_capture cs pre 0 (pre.length + c.length) pre.length c
        (splitLines diff).length (splitLines diff) hcne rfl hLlen hdrop hcsne j
        (by rw [hlen] at hj; exact hj)
  /- transfer from the `hunksFromChunks` form back to `parseHunks diff` -/
    rw [hspec, hcapm, hpatch]
    refine ⟨rfl, ?_, ?_⟩
    · rcases hmem with h | h
      · rw [h]
        exact ⟨hd, tl, hc, hhd, htl⟩
      · exact chunksAux_wf (splitLines diff) capm (by rw [hch]; simp [h])
    · intro x hx
      simp only at hx
      exact chunksAux_pre_nonAt (splitLines diff) x (by rw [hch]; exact hx)

/-- Claim C1, amended: re-parsing hunk `j`'s standalone patch yields exactly
one hunk, and that hunk's captured line sequence is the original's plus one
trailing empty line (the terminating newline of `patch` becomes a final empty
line under `split("\n")`). -/
theorem spec_c1_roundtrip (diff : Str) (j : Nat) (hj : j < (parseHunks diff).length) :
    (parseHunks ((parseHunks diff).getD j default).patch).length = 1 ∧
    capturedLines (splitLines ((parseHunks diff).getD j default).patch)
        ((parseHunks ((parseHunks diff).getD j default).patch).getD 0 default) =
      capturedLines (splitLines diff) ((parseHunks diff).getD j default) ++ [[]] := by
  obtain ⟨hpatch, hwf, hprenonat⟩ := parseHunks_patch_spec diff j hj
  rcases hch : chunksAux (splitLines diff) with ⟨cs, pre⟩
  rw [hch] at hpatch hprenonat
  simp only at hpatch hprenonat
  obtain ⟨hd, tl, hcap, hhd, htl⟩ := hwf
  have hdecomp := chunksAux_decomp (splitLines diff)
  rw [hch] at hdecomp
  simp only at hdecomp
  -- every involved line is a line of the document, hence newline-free
  have hprelines : ∀ x ∈ pre, x ∈ splitLines diff := by
    intro x hx
    rw [hdecomp]
    exact List.mem_append_left _ hx
  have hcaplines := capture_mem_lines diff j
  have hnonl : ∀ x ∈ pre ++ capturedLines (splitLines diff) ((parseHunks diff).getD j default),
      '\n' ∉ x := by
    intro x hx
    rcases List.mem_append.mp hx with h | h
    · exact not_newline_mem_splitLines diff x (hprelines x h)
    · exact not_newline_mem_splitLines diff x (hcaplines x h)
  have hne : pre ++ capturedLines (splitLines diff) ((parseHunks diff).getD j default) ≠ [] := by
    rw [hcap]
    simp
  -- splitting the patch recovers preamble ++ captured ++ [""]
  have hsplit : splitLines ((parseHunks diff).getD j default).patch =
      pre ++ (hd :: (tl ++ [[]])) := by
    rw [hpatch, splitLines_joinLines_newline _ hne hnonl, hcap]
    simp
  have htl' : ∀ x ∈ tl ++ [[]], startsWithAtAt x = false := by
    intro x hx
    rcases List.mem_append.mp hx with h | h
    · exact htl x h
    · simp at h
      rw [h]
      rfl
  have hreparse : parseHunks ((parseHunks diff).getD j default).patch =
      [⟨0, pre.length, (pre ++ hd :: (tl ++ [[]])).length - 1,
        joinLines (pre ++ hd :: (tl ++ [[]])) ++ ['\n']⟩] := by
    conv_lhs =>
      rw [show parseHunks ((parseHunks diff).getD j default).patch =
        parseHunksLines (splitLines ((parseHunks diff).getD j default).patch) from rfl]
      rw [hsplit]
    exact parseHunksLines_single pre hd (tl ++ [[]]) hprenonat hhd htl'
  constructor
  · rw [hreparse]
    rfl
  · rw [hreparse, hsplit, hcap]
    unfold capturedLines
    simp only [List.getD_cons_zero]
    have h1 : (pre ++ hd :: (tl ++ [[]])).length - 1 + 1 - pre.length =
        (hd :: (tl ++ [[]])).length := by
      simp
      omega
    rw [h1, List.drop_left]
    simp

/-- Counterexample to C1 as stated: on the two-hunk example diff, the
re-parsed first hunk's captured line sequence is NOT byte-identical to the
originally captured one (it has an extra trailing empty line). -/
theorem spec_c1_counterexample :
    ¬ (capturedLines (splitLines ((parseHunks exampleDiff).getD 0 default).patch)
          ((parseHunks ((parseHunks exampleDiff).getD 0 default).patch).getD 0 default) =
        capturedLines (splitLines exampleDiff) ((parseHunks exampleDiff).getD 0 default)) := by
  decide

/-- Witness for the amended C1 on the two-hunk example diff. -/
theorem spec_c1_witness :
    0 < (parseHunks exampleDiff).length ∧
    (parseHunks ((parseHunks exampleDiff).getD 0 default).patch).length = 1 ∧
    capturedLines (splitLines ((parseHunks exampleDiff).getD 0 default).patch)
        ((parseHunks ((parseHunks exampleDiff).getD 0 default).patch).getD 0 default) =
      capturedLines (splitLines exampleDiff) ((parseHunks exampleDiff).getD 0 default) ++ [[]] := by
  refine ⟨by decide, ?_⟩
  exact spec_c1_roundtrip exampleDiff 0 (by decide)

/-!
Windowed line store (`VirtualScrollManager`, `src/utils/virtualScroll.ts`).
All numbers are `Int`, matching JavaScript's signed arithmetic; `Math.min`,
`Math.max` and `Math.floor(x / 2)` become `min`, `max` and `Int` division
(Lean's `Int` division rounds toward negative infinity for positive
divisors, exactly like `Math.floor`).
-/

/-- The `VirtualScrollConfig` interface. -/
structure VirtualScrollConfig where
  windowSize : Int
  bufferThreshold : Int
  bufferSize : Int
  deriving Repr, DecidableEq

/-- `DEFAULT_CONFIG` of `virtualScroll.ts`. -/
def defaultConfig : VirtualScrollConfig := ⟨1000, 200, 500⟩

/-- The configuration the `DiffViewerRenderable` constructor passes
(`VIRTUAL_SCROLL_WINDOW/THRESHOLD/BUFFER`). -/
def diffViewerConfig : VirtualScrollConfig := ⟨1000, 200, 300⟩

/-- The private state of a `VirtualScrollManager`. -/
structure VSState where
  lines : List Str
  windowStart : Int
  windowEnd : Int
  deriving Repr, DecidableEq

/-- `this.lines.length` as an `Int`. -/
def VSState.totalLines (s : VSState) : Int := s.lines.length

/-- The constructor state: `lines = []`, `windowStart = windowEnd = 0`. -/
def initVSState : VSState := ⟨[], 0, 0⟩

/-- `setLines(lines)`: reset the window to `[0, min(lines.length, windowSize))`. -/
def setLines (cfg : VirtualScrollConfig) (_s : VSState) (ls : List Str) : VSState :=
  ⟨ls, 0, min (ls.length : Int) cfg.windowSize⟩

/-- `isAtStart()`. -/
def isAtStart (s : VSState) : Prop := s.windowStart = 0

/-- `isAtEnd()`. -/
def isAtEnd (s : VSState) : Prop := s.windowEnd ≥ s.totalLines

instance (s : VSState) : Decidable (isAtStart s) := by unfold isAtStart; infer_instance

instance (s : VSState) : Decidable (isAtEnd s) := by unfold isAtEnd; infer_instance

/-- `shiftWindowDown()`: returns the new state and whether the window moved. -/
def shiftWindowDown (cfg : VirtualScrollConfig) (s : VSState) : VSState × Bool :=
  let newStart := min (s.windowStart + cfg.bufferSize) (max 0 (s.totalLines - cfg.windowSize))
  let newEnd := min (newStart + cfg.windowSize) s.totalLines
  if newStart = s.windowStart then (s, false)
  else ({ s with windowStart := newStart, windowEnd := newEnd }, true)

/-- `shiftWindowUp()`. -/
def shiftWindowUp (cfg : VirtualScrollConfig) (s : VSState) : VSState × Bool :=
  let newStart := max 0 (s.windowStart - cfg.bufferSize)
  let newEnd := min (newStart + cfg.windowSize) s.totalLines
  if newStart = s.windowStart then (s, false)
  else ({ s with windowStart := newStart, windowEnd := newEnd }, true)

/-- `handleScroll(scrollPosition)`. -/
def handleScroll (cfg : VirtualScrollConfig) (s : VSState) (scrollPosition : Int) :
    VSState × Bool :=
  let relativePosition := scrollPosition - s.windowStart
  let windowHeight := s.windowEnd - s.windowStart
  let nearEnd := relativePosition > windowHeight - cfg.bufferThreshold
  let nearStart := relativePosition < cfg.bufferThreshold ∧ s.windowStart > 0
  if nearEnd ∧ ¬ isAtEnd s then shiftWindowDown cfg s
  else if nearStart ∧ ¬ isAtStart s then shiftWindowUp cfg s
  else (s, false)

/-- `toAbsolutePosition(relativePosition)`. -/
def toAbsolutePosition (s : VSState) (relativePosition : Int) : Int :=
  s.windowStart + relativePosition

/-- `toRelativePosition(absolutePosition)`. -/
def toRelativePosition (s : VSState) (absolutePosition : Int) : Int :=
  absolutePosition - s.windowStart

/-- The record returned by `scrollToAbsolute`. -/
structure ScrollResult where
  windowChanged : Bool
  relativePosition : Int
  deriving Repr, DecidableEq

/-- `scrollToAbsolute(absolutePosition)`: clamp, then either stay (position
already inside the window) or re-center the window on the position. -/
def scrollToAbsolute (cfg : VirtualScrollConfig) (s : VSState) (absolutePosition : Int) :
    VSState × ScrollResult :=
  let p1 := if absolutePosition < 0 then 0 else absolutePosition
  let p2 := if p1 ≥ s.totalLines then s.totalLines - 1 else p1
  if p2 ≥ s.windowStart ∧ p2 < s.windowEnd then
    (s, ⟨false, p2 - s.windowStart⟩)
  else
    let halfWindow := cfg.windowSize / 2
    let newStart := max 0 (p2 - halfWindow)
    let newEnd := min (newStart + cfg.windowSize) s.totalLines
    ({ s with windowStart := newStart, windowEnd := newEnd }, ⟨true, p2 - newStart⟩)

/-- `reset()`. -/
def resetVS (_s : VSState) : VSState := ⟨[], 0, 0⟩

/-- A call into the public mutating interface of `VirtualScrollManager`. -/
inductive VSOp where
  | setLines (ls : List Str)
  | handleScroll (pos : Int)
  | scrollToAbsolute (pos : Int)
  deriving Repr

/-- Apply one call, discarding the returned value. -/
def applyVSOp (cfg : VirtualScrollConfig) (s : VSState) : VSOp → VSState
  | .setLines ls => setLines cfg s ls
  | .handleScroll pos => (handleScroll cfg s pos).1
  | .scrollToAbsolute pos => (scrollToAbsolute cfg s pos).1

/-- Run a sequence of calls from a starting state. -/
def runVSOps (cfg : VirtualScrollConfig) (s : VSState) (ops : List VSOp) : VSState :=
  ops.foldl (applyVSOp cfg) s

/-- The window invariant of the specification: bounds ordered and inside the
document, window no larger than `windowSize`, and nonempty whenever the
document is. -/
def WindowInv (cfg : VirtualScrollConfig) (s : VSState) : Prop :=
  0 ≤ s.windowStart ∧ s.windowStart ≤ s.windowEnd ∧ s.windowEnd ≤ s.totalLines ∧
    s.windowEnd - s.windowStart ≤ cfg.windowSize ∧
    (0 < s.totalLines → s.windowStart < s.windowEnd)

instance (cfg : VirtualScrollConfig) (s : VSState) : Decidable (WindowInv cfg s) := by
  unfold WindowInv; infer_instance

theorem windowInv_init (cfg : VirtualScrollConfig) (hw : 1 ≤ cfg.windowSize) :
    WindowInv cfg initVSState := by
  simp only [WindowInv, initVSState, VSState.totalLines]
  simp
  omega

theorem windowInv_setLines (cfg : VirtualScrollConfig) (s : VSState) (ls : List Str)
    (hw : 1 ≤ cfg.windowSize) : WindowInv cfg (setLines cfg s ls) := by
  unfold WindowInv setLines VSState.totalLines
  simp only
  have : (0 : Int) ≤ (ls.length : Int) := by positivity
  omega

theorem windowInv_handleScroll (cfg : VirtualScrollConfig) (s : VSState) (pos : Int)
    (hw : 1 ≤ cfg.windowSize) (hb : 0 ≤ cfg.bufferSize) (hinv : WindowInv cfg s) :
    WindowInv cfg (handleScroll cfg s pos).1 := by
  obtain ⟨h1, h2, h3, h4, h5⟩ := hinv
  unfold handleScroll
  simp only
  split
  · rename_i hcond
    unfold shiftWindowDown
    simp only
    split
    · exact ⟨h1, h2, h3, h4, h5⟩
    · unfold WindowInv VSState.totalLines at *
      simp only at *
      unfold isAtEnd VSState.totalLines at hcond
      omega
  · split
    · rename_i hcond
      unfold shiftWindowUp
      simp only
      split
      · exact ⟨h1, h2, h3, h4, h5⟩
      · unfold WindowInv VSState.totalLines at *
        simp only at *
        unfold isAtStart at hcond
        omega
    · exact ⟨h1, h2, h3, h4, h5⟩

theorem windowInv_scrollToAbsolute (cfg : VirtualScrollConfig) (s : VSState) (pos : Int)
    (hw : 1 ≤ cfg.windowSize) (hinv : WindowInv cfg s) :
    WindowInv cfg (scrollToAbsolute cfg s pos).1 := by
  obtain ⟨h1, h2, h3, h4, h5⟩ := hinv
  have hhalf : 0 ≤ cfg.windowSize / 2 := by omega
  have hlen : (0 : Int) ≤ (s.lines.length : Int) := by positivity
  unfold VSState.totalLines at *
  unfold scrollToAbsolute WindowInv VSState.totalLines
  simp only
  split_ifs <;> simp only <;> refine ⟨by omega, by omega, by omega, by omega, by omega⟩

theorem windowInv_run (cfg : VirtualScrollConfig) (ops : List VSOp)
    (hw : 1 ≤ cfg.windowSize) (hb : 0 ≤ cfg.bufferSize) :
    ∀ s, WindowInv cfg s → WindowInv cfg (runVSOps cfg s ops) := by
  induction ops with
  | nil => intro s h; exact h
  | cons op ops ih =>
    intro s h
    refine ih _ ?_
    rcases op with ls | pos | pos
    · exact windowInv_setLines cfg s ls hw
    · exact windowInv_handleScroll cfg s pos hw hb h
    · exact windowInv_scrollToAbsolute cfg s pos hw h

theorem windowInv_run_init (cfg : VirtualScrollConfig) (ops : List VSOp)
    (hw : 1 ≤ cfg.windowSize) (hb : 0 ≤ cfg.bufferSize) :
    WindowInv cfg (runVSOps cfg initVSState ops) :=
  windowInv_run cfg ops hw hb initVSState (windowInv_init cfg hw)

/-- Claim C3, amended: with `windowSize >= 1`, any `bufferThreshold`, and any
NON-NEGATIVE `bufferSize`, every sequence of `setLines` / `handleScroll` /
`scrollToAbsolute` calls from the constructor state keeps the window
invariant: `0 <= windowStart <= windowEnd <= totalLines`,
`windowEnd - windowStart <= windowSize`, and a nonempty window whenever
`totalLines > 0`. -/
theorem spec_c3_window_invariant (cfg : VirtualScrollConfig) (ops : List VSOp)
    (hw : 1 ≤ cfg.windowSize) (hb : 0 ≤ cfg.bufferSize) :
    WindowInv cfg (runVSOps cfg initVSState ops) :=
  windowInv_run_init cfg ops hw hb

/-- Counterexample to C3 as stated: with `windowSize = 1 >= 1` but a negative
`bufferSize = -5` (the claim allows ANY `bufferSize`), `setLines` of ten lines
followed by `handleScroll 5` drives `windowStart` to `-5`, violating
`0 <= windowStart`. -/
theorem spec_c3_counterexample :
    ¬ WindowInv ⟨1, 0, -5⟩
      (runVSOps ⟨1, 0, -5⟩ initVSState
        [VSOp.setLines (List.replicate 10 []), VSOp.handleScroll 5]) := by
  decide

/-- Witness for the amended C3 at the default configuration. -/
theorem spec_c3_witness :
    WindowInv defaultConfig
      (runVSOps defaultConfig initVSState
        [VSOp.setLines (List.replicate 7 []), VSOp.handleScroll 6,
         VSOp.scrollToAbsolute 3]) := by
  have h := spec_c3_window_invariant defaultConfig
    [VSOp.setLines (List.replicate 7 []), VSOp.handleScroll 6, VSOp.scrollToAbsolute 3]
    (by decide) (by decide)
  exact h

/-- Closed form of `scrollToAbsolute` on a non-empty store: clamp, then
either no shift (position inside the window) or re-center. -/
theorem scrollToAbsolute_nonempty (cfg : VirtualScrollConfig) (s : VSState) (pos : Int)
    (h : 0 < s.totalLines) :
    scrollToAbsolute cfg s pos =
      (if s.windowStart ≤ max 0 (min pos (s.totalLines - 1)) ∧
          max 0 (min pos (s.totalLines - 1)) < s.windowEnd then
        (s, ⟨false, max 0 (min pos (s.totalLines - 1)) - s.windowStart⟩)
      else
        ({ s with
            windowStart := max 0 (max 0 (min pos (s.totalLines - 1)) - cfg.windowSize / 2),
            windowEnd := min (max 0 (max 0 (min pos (s.totalLines - 1)) - cfg.windowSize / 2)
              + cfg.windowSize) s.totalLines },
         ⟨true, max 0 (min pos (s.totalLines - 1)) -
            max 0 (max 0 (min pos (s.totalLines - 1)) - cfg.windowSize / 2)⟩)) := by
  unfold scrollToAbsolute VSState.totalLines at *
  simp only
  split_ifs <;>
    simp_all [Prod.mk.injEq, VSState.mk.injEq, ScrollResult.mk.injEq] <;>
    omega

/-- Claim C4: on a non-empty store, `scrollToAbsolute(p)` first clamps `p` to
`[0, totalLines - 1]`; if the clamped position already lies in
`[windowStart, windowEnd)` the window is unchanged and `windowChanged` is
`false`; otherwise the window is re-centered at
`newStart = max(0, p - floor(windowSize / 2))`,
`newEnd = min(newStart + windowSize, totalLines)` and `windowChanged` is
`true`; in particular with 5000 lines and `windowSize = 1000`,
`scrollToAbsolute(4999)` leaves `windowEnd = 5000` (see the witness). -/
theorem spec_c4_scroll_postcondition (cfg : VirtualScrollConfig) (s : VSState) (pos : Int)
    (h : 0 < s.totalLines) :
    scrollToAbsolute cfg s pos =
      (if s.windowStart ≤ max 0 (min pos (s.totalLines - 1)) ∧
          max 0 (min pos (s.totalLines - 1)) < s.windowEnd then
        (s, ⟨false, max 0 (min pos (s.totalLines - 1)) - s.windowStart⟩)
      else
        ({ s with
            windowStart := max 0 (max 0 (min pos (s.totalLines - 1)) - cfg.windowSize / 2),
            windowEnd := min (max 0 (max 0 (min pos (s.totalLines - 1)) - cfg.windowSize / 2)
              + cfg.windowSize) s.totalLines },
         ⟨true, max 0 (min pos (s.totalLines - 1)) -
            max 0 (max 0 (min pos (s.totalLines - 1)) - cfg.windowSize / 2)⟩)) :=
  scrollToAbsolute_nonempty cfg s pos h

/-- Witness for C4, with the spec's scenario: 5000 lines, `windowSize = 1000`;
`scrollToAbsolute(4999)` re-centers to `[4499, 5000)` — the window ends at
5000, clamped, and does not shift past the end. -/
theorem spec_c4_witness :
    0 < (setLines diffViewerConfig initVSState (List.replicate 5000 [])).totalLines ∧
    (scrollToAbsolute diffViewerConfig
        (setLines diffViewerConfig initVSState (List.replicate 5000 [])) 4999).1.windowEnd
      = 5000 ∧
    (scrollToAbsolute diffViewerConfig
        (setLines diffViewerConfig initVSState (List.replicate 5000 [])) 4999).1.windowStart
      = 4499 ∧
    (scrollToAbsolute diffViewerConfig
        (setLines diffViewerConfig initVSState (List.replicate 5000 [])) 4999).2.windowChanged
      = true := by
  have htot : (setLines diffViewerConfig initVSState (List.replicate 5000 [])).totalLines
      = 5000 := by
    simp only [VSState.totalLines, setLines, List.length_replicate]
    norm_num
  have hws : (setLines diffViewerConfig initVSState
      (List.replicate 5000 ([] : Str))).windowStart = 0 := by
    simp only [setLines]
  have hwe : (setLines diffViewerConfig initVSState
      (List.replicate 5000 ([] : Str))).windowEnd = 1000 := by
    simp only [setLines, List.length_replicate]
    norm_num [diffViewerConfig, min_def]
  have h := spec_c4_scroll_postcondition diffViewerConfig
    (setLines diffViewerConfig initVSState (List.replicate 5000 [])) 4999
    (by rw [htot]; norm_num)
  rw [htot, hws, hwe] at h
  refine ⟨by rw [htot]; norm_num, ?_, ?_, ?_⟩ <;>
    · rw [h]
      norm_num [diffViewerConfig, min_def, max_def]

/-- Claim C8: the position conversions are exact inverse arithmetic offsets:
in any state reachable by any call sequence (so both before and after any
window shift), `toRelativePosition(toAbsolutePosition(x)) = x` for every `x`
whose absolute image lies inside the window. -/
theorem spec_c8_position_roundtrip (cfg : VirtualScrollConfig) (ops : List VSOp) (x : Int)
    (_hin : (runVSOps cfg initVSState ops).windowStart ≤
        toAbsolutePosition (runVSOps cfg initVSState ops) x ∧
      toAbsolutePosition (runVSOps cfg initVSState ops) x <
        (runVSOps cfg initVSState ops).windowEnd) :
    toRelativePosition (runVSOps cfg initVSState ops)
      (toAbsolutePosition (runVSOps cfg initVSState ops) x) = x := by
  unfold toRelativePosition toAbsolutePosition
  omega

/-- Witness for C8 after a window shift: nine lines with `windowSize = 4`,
jump to 7 (window becomes `[5, 9)`), relative position 1 round-trips. -/
theorem spec_c8_witness :
    ((runVSOps ⟨4, 1, 2⟩ initVSState
        [VSOp.setLines (List.replicate 9 []), VSOp.scrollToAbsolute 7]).windowStart ≤
      toAbsolutePosition (runVSOps ⟨4, 1, 2⟩ initVSState
        [VSOp.setLines (List.replicate 9 []), VSOp.scrollToAbsolute 7]) 1 ∧
      toAbsolutePosition (runVSOps ⟨4, 1, 2⟩ initVSState
        [VSOp.setLines (List.replicate 9 []), VSOp.scrollToAbsolute 7]) 1 <
      (runVSOps ⟨4, 1, 2⟩ initVSState
        [VSOp.setLines (List.replicate 9 []), VSOp.scrollToAbsolute 7]).windowEnd) ∧
    toRelativePosition (runVSOps ⟨4, 1, 2⟩ initVSState
        [VSOp.setLines (List.replicate 9 []), VSOp.scrollToAbsolute 7])
      (toAbsolutePosition (runVSOps ⟨4, 1, 2⟩ initVSState
        [VSOp.setLines (List.replicate 9 []), VSOp.scrollToAbsolute 7]) 1) = 1 := by
  refine ⟨by decide, ?_⟩
  exact spec_c8_position_roundtrip ⟨4, 1, 2⟩
    [VSOp.setLines (List.replicate 9 []), VSOp.scrollToAbsolute 7] 1 (by decide)

/-- Claim C10: on an empty store (`totalLines = 0`, so in any invariant state
the window is `[0, 0)`), `scrollToAbsolute(p)` for every integer `p` returns
`windowChanged = true` and `relativePosition = -1` — the clamp to
`[0, totalLines - 1]` degenerates to position `-1` — and leaves the window at
`[0, 0)`. -/
theorem spec_c10_empty_store (cfg : VirtualScrollConfig) (s : VSState) (pos : Int)
    (hw : 1 ≤ cfg.windowSize) (hempty : s.lines = []) (hinv : WindowInv cfg s) :
    scrollToAbsolute cfg s pos = (⟨[], 0, 0⟩, ⟨true, -1⟩) := by
  obtain ⟨h1, h2, h3, h4, h5⟩ := hinv
  unfold VSState.totalLines at *
  rcases s with ⟨ls, ws, we⟩
  simp only at hempty
  subst hempty
  simp only [List.length_nil, Nat.cast_zero] at *
  have hws : ws = 0 := by omega
  have hwe : we = 0 := by omega
  subst hws
  subst hwe
  have hhalf : 0 ≤ cfg.windowSize / 2 := by omega
  unfold scrollToAbsolute VSState.totalLines
  simp only [List.length_nil, Nat.cast_zero]
  split_ifs <;>
    simp_all [Prod.mk.injEq, VSState.mk.injEq, ScrollResult.mk.injEq] <;>
    omega

/-- Witness for C10 at the default configuration, the constructor state, and
position 42. -/
theorem spec_c10_witness :
    scrollToAbsolute defaultConfig initVSState 42 = (⟨[], 0, 0⟩, ⟨true, -1⟩) :=
  spec_c10_empty_store defaultConfig initVSState 42 (by decide) rfl (by decide)

/-!
Hunk navigator (`goToNextHunk` / `goToPrevHunk` and the `g`/`G` jumps of
`handleKey`, `src/components/DiffViewer.ts`).  The navigator state is the
`hunks` array, the `currentHunkIndex` field (an `Int`, since it is `-1` when
no hunks exist), and whether `this.scrollBox` is non-null.  The call
`this.scrollToAbsolute(...)` is modelled by returning its argument as an
event (`Option Nat`): `none` means no scroll call was made.
-/

structure NavState where
  hunks : List HunkInfo
  currentHunkIndex : Int
  hasScrollBox : Bool
  deriving Repr, DecidableEq

/-- `goToNextHunk()`: guard on empty hunks / missing scroll box; if
`currentHunkIndex < hunks.length - 1`, increment and scroll to the new
current hunk's `startLine`. -/
def goToNextHunk (s : NavState) : NavState × Option Nat :=
  if s.hunks.length = 0 ∨ s.hasScrollBox = false then (s, none)
  else if s.currentHunkIndex < (s.hunks.length : Int) - 1 then
    let newIdx := s.currentHunkIndex + 1
    ({ s with currentHunkIndex := newIdx },
      some ((s.hunks.getD newIdx.toNat default).startLine))
  else (s, none)

/-- `goToPrevHunk()`: symmetric, guarded by `currentHunkIndex > 0`. -/
def goToPrevHunk (s : NavState) : NavState × Option Nat :=
  if s.hunks.length = 0 ∨ s.hasScrollBox = false then (s, none)
  else if s.currentHunkIndex > 0 then
    let newIdx := s.currentHunkIndex - 1
    ({ s with currentHunkIndex := newIdx },
      some ((s.hunks.getD newIdx.toNat default).startLine))
  else (s, none)

/-- `k` repeated `goToNextHunk` calls. -/
def nextIter : Nat → NavState → NavState
  | 0, s => s
  | k + 1, s => nextIter k (goToNextHunk s).1

/-- `k` repeated `goToPrevHunk` calls. -/
def prevIter : Nat → NavState → NavState
  | 0, s => s
  | k + 1, s => prevIter k (goToPrevHunk s).1

theorem goToNextHunk_preserves (s : NavState) :
    ((goToNextHunk s).1).hunks = s.hunks ∧
    ((goToNextHunk s).1).hasScrollBox = s.hasScrollBox := by
  unfold goToNextHunk
  split_ifs <;> simp

theorem goToPrevHunk_preserves (s : NavState) :
    ((goToPrevHunk s).1).hunks = s.hunks ∧
    ((goToPrevHunk s).1).hasScrollBox = s.hasScrollBox := by
  unfold goToPrevHunk
  split_ifs <;> simp

theorem goToNextHunk_idx (s : NavState) (hbox : s.hasScrollBox = true)
    (hN : 1 ≤ s.hunks.length) :
    ((goToNextHunk s).1).currentHunkIndex =
      (if s.currentHunkIndex < (s.hunks.length : Int) - 1 then s.currentHunkIndex + 1
       else s.currentHunkIndex) := by
  unfold goToNextHunk
  split_ifs with h1 h2 h2 <;> simp_all

theorem goToPrevHunk_idx (s : NavState) (hbox : s.hasScrollBox = true)
    (hN : 1 ≤ s.hunks.length) :
    ((goToPrevHunk s).1).currentHunkIndex =
      (if 0 < s.currentHunkIndex then s.currentHunkIndex - 1
       else s.currentHunkIndex) := by
  unfold goToPrevHunk
  split_ifs with h1 h2 h2 <;> simp_all

theorem nextIter_idx (k : Nat) :
    ∀ s : NavState, s.hasScrollBox = true → 1 ≤ s.hunks.length →
      0 ≤ s.currentHunkIndex → s.currentHunkIndex ≤ (s.hunks.length : Int) - 1 →
      (nextIter k s).currentHunkIndex =
        min (s.currentHunkIndex + k) ((s.hunks.length : Int) - 1) := by
  induction k with
  | zero =>
    intro s _ _ _ hub
    unfold nextIter
    omega
  | succ k ih =>
    intro s hbox hN hidx hub
    obtain ⟨hh, hb⟩ := goToNextHunk_preserves s
    have hstep := goToNextHunk_idx s hbox hN
    have hrec := ih (goToNextHunk s).1 (by rw [hb, hbox]) (by rw [hh]; exact hN)
      (by rw [hstep]; split_ifs <;> omega)
      (by rw [hstep, hh]; split_ifs <;> omega)
    simp only [hh, hstep] at hrec
    show (nextIter k (goToNextHunk s).1).currentHunkIndex = _
    rw [hrec]
    split_ifs <;> omega

theorem prevIter_idx (k : Nat) :
    ∀ s : NavState, s.hasScrollBox = true → 1 ≤ s.hunks.length →
      s.currentHunkIndex ≤ (s.hunks.length : Int) - 1 →
      0 ≤ s.currentHunkIndex →
      (prevIter k s).currentHunkIndex = max (s.currentHunkIndex - k) 0 := by
  induction k with
  | zero =>
    intro s _ _ _ hidx
    unfold prevIter
    omega
  | succ k ih =>
    intro s hbox hN hub hidx
    obtain ⟨hh, hb⟩ := goToPrevHunk_preserves s
    have hstep := goToPrevHunk_idx s hbox hN
    have hrec := ih (goToPrevHunk s).1 (by rw [hb, hbox]) (by rw [hh]; exact hN)
      (by rw [hstep, hh]; split_ifs <;> omega)
      (by rw [hstep]; split_ifs <;> omega)
    simp only [hh, hstep] at hrec
    show (prevIter k (goToPrevHunk s).1).currentHunkIndex = _
    rw [hrec]
    split_ifs <;> omega

/-- Claim C5: with N >= 1 hunks and a scroll box, `goToNextHunk` from index
`j < N - 1` increments `currentHunkIndex` by exactly one and scrolls to
`hunks[j + 1].startLine`, and is a no-op at index `N - 1`; `goToPrevHunk`
symmetrically decrements down to 0, is a no-op at index 0, and both are
no-ops when no hunks exist; iterating from 0 visits `0, 1, ..., N - 1` in
order and then stays at `N - 1`, and iterating `previous` from `N - 1`
visits the exact reverse. -/
theorem spec_c5_navigator_monotone :
    (∀ s : NavState, s.hasScrollBox = true → 1 ≤ s.hunks.length →
      ((∀ j : Nat, (j : Int) = s.currentHunkIndex → j + 1 < s.hunks.length →
        goToNextHunk s = ({ s with currentHunkIndex := (j : Int) + 1 },
          some ((s.hunks.getD (j + 1) default).startLine))) ∧
      (s.currentHunkIndex = (s.hunks.length : Int) - 1 → goToNextHunk s = (s, none)) ∧
      (∀ j : Nat, (j : Int) = s.currentHunkIndex → 1 ≤ j →
        goToPrevHunk s = ({ s with currentHunkIndex := (j : Int) - 1 },
          some ((s.hunks.getD (j - 1) default).startLine))) ∧
      (s.currentHunkIndex = 0 → goToPrevHunk s = (s, none)))) ∧
    (∀ s : NavState, s.hunks = [] →
      goToNextHunk s = (s, none) ∧ goToPrevHunk s = (s, none)) ∧
    (∀ s : NavState, s.hasScrollBox = true → 1 ≤ s.hunks.length →
      s.currentHunkIndex = 0 → ∀ k : Nat,
        (nextIter k s).currentHunkIndex = min (k : Int) ((s.hunks.length : Int) - 1)) ∧
    (∀ s : NavState, s.hasScrollBox = true → 1 ≤ s.hunks.length →
      s.currentHunkIndex = (s.hunks.length : Int) - 1 → ∀ k : Nat,
        (prevIter k s).currentHunkIndex = max ((s.hunks.length : Int) - 1 - k) 0) := by
  refine ⟨?_, ?_, ?_, ?_⟩
  · intro s hbox hN
    refine ⟨?_, ?_, ?_, ?_⟩
    · intro j hj hjlen
      unfold goToNextHunk
      rw [if_neg (by
        rintro (h | h)
        · omega
        · rw [hbox] at h
          exact Bool.noConfusion h)]
      rw [if_pos (by omega)]
      simp only
      rw [← hj]
      have ht : ((j : Int) + 1).toNat = j + 1 := by omega
      rw [ht]
    · intro hlast
      unfold goToNextHunk
      rw [if_neg (by
        rintro (h | h)
        · omega
        · rw [hbox] at h
          exact Bool.noConfusion h)]
      rw [if_neg (by omega)]
    · intro j hj hj1
      unfold goToPrevHunk
      rw [if_neg (by
        rintro (h | h)
        · omega
        · rw [hbox] at h
          exact Bool.noConfusion h)]
      rw [if_pos (by omega)]
      simp only
      rw [← hj]
      have ht : ((j : Int) - 1).toNat = j - 1 := by omega
      rw [ht]
    · intro hzero
      unfold goToPrevHunk
      rw [if_neg (by
        rintro (h | h)
        · omega
        · rw [hbox] at h
          exact Bool.noConfusion h)]
      rw [if_neg (by omega)]
  · intro s hempty
    constructor
    · unfold goToNextHunk
      rw [if_pos (by simp [hempty])]
    · unfold goToPrevHunk
      rw [if_pos (by simp [hempty])]
  · intro s hbox hN hzero k
    have := nextIter_idx k s hbox hN (by omega) (by omega)
    rw [this, hzero]
    omega
  · intro s hbox hN hlast k
    have := prevIter_idx k s hbox hN (by omega) (by omega)
    rw [this, hlast]

/-- Witness for C5 on the two-hunk example diff (hunks start at lines 1 and
3): `next` from 0 goes to index 1 and scrolls to line 3; five `next` calls
saturate at index 1; `previous` at 0 is a no-op. -/
theorem spec_c5_witness :
    goToNextHunk ⟨parseHunks exampleDiff, 0, true⟩ =
      (⟨parseHunks exampleDiff, 1, true⟩, some 3) ∧
    (nextIter 5 ⟨parseHunks exampleDiff, 0, true⟩).currentHunkIndex = 1 ∧
    goToPrevHunk ⟨parseHunks exampleDiff, 0, true⟩ =
      (⟨parseHunks exampleDiff, 0, true⟩, none) := by
  obtain ⟨hmain, _, hiter, _⟩ := spec_c5_navigator_monotone
  have h1 := (hmain ⟨parseHunks exampleDiff, 0, true⟩ rfl (by decide)).1 0 (by decide) (by decide)
  have h2 := hiter ⟨parseHunks exampleDiff, 0, true⟩ rfl (by decide) (by decide) 5
  have h3 := (hmain ⟨parseHunks exampleDiff, 0, true⟩ rfl (by decide)).2.2.2 (by decide)
  refine ⟨?_, ?_, ?_⟩
  · rw [h1]
    decide
  · rw [h2]
    decide
  · rw [h3]

/-!
The `g` (double press, go to top) and shift-`g` (go to bottom) branches of
`DiffViewerRenderable.handleKey`, together with the private viewer method
`scrollToAbsolute` they invoke (lines 486-509 and 556-568 of
`DiffViewer.ts`).  The modelled fields are the virtual-scroll state, the
hunks, `currentHunkIndex`, the `gPending` flag and the scroll-box guard;
re-rendering and `scrollBox.scrollTo` touch none of them.
-/

structure ViewerState where
  vs : VSState
  hunks : List HunkInfo
  currentHunkIndex : Int
  gPending : Bool
  hasScrollBox : Bool
  deriving Repr, DecidableEq

/-- The private `this.scrollToAbsolute(position)` of the viewer: delegates to
the virtual-scroll manager and re-renders; it does not touch
`currentHunkIndex`. -/
def viewerScrollToAbsolute (cfg : VirtualScrollConfig) (s : ViewerState) (pos : Int) :
    ViewerState :=
  { s with vs := (scrollToAbsolute cfg s.vs pos).1 }

/-- `handleKey` on shift-`g`: clear `gPending`, scroll to the last line. -/
def handleKeyShiftG (cfg : VirtualScrollConfig) (s : ViewerState) : ViewerState :=
  if s.hasScrollBox = false then s
  else viewerScrollToAbsolute cfg { s with gPending := false } (s.vs.totalLines - 1)

/-- `handleKey` on `g`: on the second press of a double-`g` scroll to line 0;
on a first press just arm `gPending`. -/
def handleKeyG (cfg : VirtualScrollConfig) (s : ViewerState) : ViewerState :=
  if s.hasScrollBox = false then s
  else if s.gPending then viewerScrollToAbsolute cfg { s with gPending := false } 0
  else { s with gPending := true }

/-- A concrete viewer state on the two-hunk example diff, current hunk 1,
`gPending` armed. -/
def viewerStateEx : ViewerState :=
  ⟨setLines diffViewerConfig initVSState (splitLines exampleDiff),
    parseHunks exampleDiff, 1, true, true⟩

/-- Counterexample to C9 as stated: the double-`g` jump to the top does NOT
reset `currentHunkIndex` (it stays 1), and the shift-`g` jump to the bottom
does NOT saturate it to the last hunk index (it stays 0 with two hunks). -/
theorem spec_c9_counterexample :
    ¬ ((handleKeyG diffViewerConfig viewerStateEx).currentHunkIndex = 0) ∧
    ¬ ((handleKeyShiftG diffViewerConfig
          { viewerStateEx with currentHunkIndex := 0 }).currentHunkIndex =
        ((parseHunks exampleDiff).length : Int) - 1) := by
  decide

/-- Claim C9, amended: the go-to-top (double `g`) and go-to-bottom
(shift-`g`) jumps scroll the window to line 0 resp. `totalLines - 1` without
requiring a hunk to exist at the target position, and leave
`currentHunkIndex` (and the hunk list) unchanged — they neither reset nor
saturate it. -/
theorem spec_c9_top_bottom (cfg : VirtualScrollConfig) (s : ViewerState) :
    (handleKeyG cfg s).currentHunkIndex = s.currentHunkIndex ∧
    (handleKeyShiftG cfg s).currentHunkIndex = s.currentHunkIndex ∧
    (handleKeyG cfg s).hunks = s.hunks ∧
    (handleKeyShiftG cfg s).hunks = s.hunks ∧
    (s.hasScrollBox = true → s.gPending = true →
      (handleKeyG cfg s).vs = (scrollToAbsolute cfg s.vs 0).1) ∧
    (s.hasScrollBox = true →
      (handleKeyShiftG cfg s).vs = (scrollToAbsolute cfg s.vs (s.vs.totalLines - 1)).1) := by
  unfold handleKeyG handleKeyShiftG viewerScrollToAbsolute
  refine ⟨?_, ?_, ?_, ?_, ?_, ?_⟩ <;> split_ifs <;> simp_all

/-- Witness for the amended C9 on the example viewer state. -/
theorem spec_c9_witness :
    (handleKeyG diffViewerConfig viewerStateEx).currentHunkIndex =
      viewerStateEx.currentHunkIndex ∧
    (handleKeyShiftG diffViewerConfig viewerStateEx).currentHunkIndex =
      viewerStateEx.currentHunkIndex ∧
    (handleKeyG diffViewerConfig viewerStateEx).vs =
      (scrollToAbsolute diffViewerConfig viewerStateEx.vs 0).1 := by
  obtain ⟨h1, h2, _, _, h5, _⟩ := spec_c9_top_bottom diffViewerConfig viewerStateEx
  exact ⟨h1, h2, h5 rfl rfl⟩

/-!
Hunk apply service (`stageHunk` / `unstageHunk` / `discardHunk`,
`src/services/git.ts` lines 568-611).  Each spawns `git apply` with the
intent's flags, writes the patch to stdin, and returns `exitCode === 0`; the
surrounding `try/catch` converts any spawn/write failure into `false`.  The
external process is modelled by its outcome: it either exits with a code or
the spawn throws.  Totality of the Lean functions (they always return a
`Bool`) models "never throws an exception to the caller".
-/

inductive SpawnOutcome where
  | exited (code : Int)
  | spawnFailure
  deriving Repr, DecidableEq

/-- The argv of `stageHunk`: `git -C cwd apply --cached -`. -/
def stageHunkArgv (cwd : Str) : List Str :=
  ["git".toList, "-C".toList, cwd, "apply".toList, "--cached".toList, "-".toList]

/-- The argv of `unstageHunk`: `git -C cwd apply --cached -R -`. -/
def unstageHunkArgv (cwd : Str) : List Str :=
  ["git".toList, "-C".toList, cwd, "apply".toList, "--cached".toList, "-R".toList,
    "-".toList]

/-- The argv of `discardHunk`: `git -C cwd apply -R -`. -/
def discardHunkArgv (cwd : Str) : List Str :=
  ["git".toList, "-C".toList, cwd, "apply".toList, "-R".toList, "-".toList]

/-- The body of the `try` block: await the process and read its exit code;
a spawn/write failure is an exception (`Except.error`). -/
def spawnGitApply (_argv : List Str) (_stdinPatch : Str) :
    SpawnOutcome → Except Unit Int
  | .exited code => .ok code
  | .spawnFailure => .error ()

/-- `stageHunk(filePath, hunkPatch)`: `true` iff `git apply --cached` exits 0;
the `catch` turns any thrown error into `false`. -/
def stageHunk (cwd _filePath hunkPatch : Str) (outcome : SpawnOutcome) : Bool :=
  match spawnGitApply (stageHunkArgv cwd) hunkPatch outcome with
  | .ok code => decide (code = 0)
  | .error _ => false

/-- `unstageHunk(filePath, hunkPatch)`: reverse-apply to the index. -/
def unstageHunk (cwd _filePath hunkPatch : Str) (outcome : SpawnOutcome) : Bool :=
  match spawnGitApply (unstageHunkArgv cwd) hunkPatch outcome with
  | .ok code => decide (code = 0)
  | .error _ => false

/-- `discardHunk(filePath, hunkPatch)`: reverse-apply to the working tree. -/
def discardHunk (cwd _filePath hunkPatch : Str) (outcome : SpawnOutcome) : Bool :=
  match spawnGitApply (discardHunkArgv cwd) hunkPatch outcome with
  | .ok code => decide (code = 0)
  | .error _ => false

/-- Claim C6: for every patch and intent, the three hunk-apply operations are
total boolean functions of the external outcome (never throwing to the
caller): each returns `true` iff the spawned `git apply` process exits with
code 0, and `false` on any non-zero exit or spawn failure. -/
theorem spec_c6_hunk_apply_boolean (cwd filePath hunkPatch : Str) (o : SpawnOutcome) :
    (stageHunk cwd filePath hunkPatch o = true ↔ o = .exited 0) ∧
    (unstageHunk cwd filePath hunkPatch o = true ↔ o = .exited 0) ∧
    (discardHunk cwd filePath hunkPatch o = true ↔ o = .exited 0) ∧
    (o = .spawnFailure →
      stageHunk cwd filePath hunkPatch o = false ∧
      unstageHunk cwd filePath hunkPatch o = false ∧
      discardHunk cwd filePath hunkPatch o = false) := by
  cases o with
  | exited c => simp [stageHunk, unstageHunk, discardHunk, spawnGitApply]
  | spawnFailure => simp [stageHunk, unstageHunk, discardHunk, spawnGitApply]

/-- Witness for C6: concrete outcomes — exit 0 yields `true`, exit 1 and a
spawn failure yield `false`. -/
theorem spec_c6_witness :
    stageHunk [] [] [] (SpawnOutcome.exited 0) = true ∧
    unstageHunk [] [] [] (SpawnOutcome.exited 0) = true ∧
    discardHunk [] [] [] (SpawnOutcome.exited 0) = true ∧
    stageHunk [] [] [] (SpawnOutcome.exited 1) = false ∧
    stageHunk [] [] [] SpawnOutcome.spawnFailure = false ∧
    unstageHunk [] [] [] SpawnOutcome.spawnFailure = false ∧
    discardHunk [] [] [] SpawnOutcome.spawnFailure = false := by
  obtain ⟨h0a, h0b, h0c, _⟩ := spec_c6_hunk_apply_boolean [] [] [] (SpawnOutcome.exited 0)
  obtain ⟨h1a, _, _, _⟩ := spec_c6_hunk_apply_boolean [] [] [] (SpawnOutcome.exited 1)
  obtain ⟨_, _, _, hf⟩ := spec_c6_hunk_apply_boolean [] [] [] SpawnOutcome.spawnFailure
  obtain ⟨hfa, hfb, hfc⟩ := hf rfl
  refine ⟨h0a.mpr rfl, h0b.mpr rfl, h0c.mpr rfl, ?_, hfa, hfb, hfc⟩
  by_cases h : stageHunk [] [] [] (SpawnOutcome.exited 1) = true
  · exact absurd (h1a.mp h) (by decide)
  · simpa using h

end Fid
